import Mathlib

/-!
Verification of `src/voronoi.py` (a brute-force Voronoi diagram renderer).

Shallow embedding conventions:
* Python floats are modelled as exact rationals `ℚ` for the geometric core
  (`normalize`, `denormalize`, `dist_sqr`, `man_dist`, `scale`, `xy_to_rg`,
  `cpi`, `gen_image`): all arithmetic appearing there is field arithmetic and
  comparisons, representable exactly.  The transcendental colour mapping
  `polar_to_hsv` (square root, `atan2`, `hsv_to_rgb`) is modelled over `ℝ`.
* Python `int(x)` is truncation toward zero (`pyInt`).
* Python's `min(seq, key=k)` raises `ValueError` on an empty sequence and
  otherwise returns the first element attaining the minimal key; it is
  modelled by `pymin` returning `Except PyErr`.
* The module constants `RES = 512`, `DOT_SIZE = 2`, `METRIC_SPACE = 0` are
  part of the configuration surface; functions reading a constant that a
  claim quantifies over take it as an explicit parameter.
-/

namespace Voronoi

/-- Source `type Point`: a point `(X, Y)` in 2d space, coordinates
modelled as exact rationals. -/
abbrev Point : Type := ℚ × ℚ

/-- Source `type Pixel`: integer pixel coordinates. -/
abbrev Pixel : Type := ℤ × ℤ

/-- Source `type Col`: a colour `(R, G, B)` triple of Python ints. -/
abbrev Col : Type := ℤ × ℤ × ℤ

/-- The source constant `RES = 512`. -/
def RES : ℕ := 512

/-- The source constant `DOT_SIZE = 2`. -/
def DOT_SIZE : ℕ := 2

/-- Python's `int()` applied to a rational: truncation toward zero. -/
def pyInt (q : ℚ) : ℤ := if 0 ≤ q then ⌊q⌋ else ⌈q⌉

/-- Source `normalize(pixel)`: `(pixel[0] / RES, pixel[1] / RES)`. -/
def normalize (pixel : Pixel) : Point :=
  ((pixel.1 : ℚ) / (RES : ℚ), (pixel.2 : ℚ) / (RES : ℚ))

/-- Source `denormalize(point)`: `(int(point[0] * RES), int(point[1] * RES))`. -/
def denormalize (point : Point) : Pixel :=
  (pyInt (point.1 * (RES : ℚ)), pyInt (point.2 * (RES : ℚ)))

/-- Source `dist_sqr(p1, p2)`: `(p1[0] - p2[0]) ** 2 + (p1[1] - p2[1]) ** 2`. -/
def dist_sqr (p1 p2 : Point) : ℚ :=
  (p1.1 - p2.1) ^ 2 + (p1.2 - p2.2) ^ 2

/-- Source `man_dist(p1, p2)`: `abs(p1[0] - p2[0]) + abs(p1[1] - p2[1])`. -/
def man_dist (p1 p2 : Point) : ℚ :=
  |p1.1 - p2.1| + |p1.2 - p2.2|

/-- Source `scale(c)`: `(int(c[0] * 255), int(c[1] * 255), int(c[2] * 255))`. -/
def scale (c : ℚ × ℚ × ℚ) : Col :=
  (pyInt (c.1 * 255), pyInt (c.2.1 * 255), pyInt (c.2.2 * 255))

/-- Source `xy_to_rg(p)`: `scale((p[0], p[1], 0))`. -/
def xy_to_rg (p : Point) : Col := scale (p.1, p.2, 0)

/-- Default point used by `List.getD` in statements (never reached under the
stated index bounds). -/
def pt0 : Point := (0, 0)

/-- The error classes relevant to the claims: Python's `ValueError` (raised
by `min` on an empty sequence, and by `list.index` on a missing element) and
the `InvalidInput` error class that the specification postulates. -/
inductive PyErr : Type
  | valueError
  | invalidInput
deriving DecidableEq

/-- Python's `min(seq, key=key)`: raises `ValueError` on an empty sequence;
otherwise scans left to right keeping the current element unless a strictly
smaller key appears, so the first element attaining the minimal key wins. -/
def pymin (key : Point → ℚ) : List Point → Except PyErr Point
  | [] => Except.error PyErr.valueError
  | x :: xs => Except.ok (xs.foldl (fun b a => if key a < key b then a else b) x)

/-- Python's `list.index(x)`: the index of the first occurrence of `x`.
(`list.index` raises `ValueError` when `x` is absent; `cpi` only ever looks
up an element returned by `min`, which is a member of the list.) -/
def pyIndex (l : List Point) (x : Point) : ℕ := l.findIdx (fun q => decide (q = x))

/-- The metric selection `[dist_sqr, man_dist][METRIC_SPACE]` of the source:
index 0 is squared Euclidean distance, index 1 is Manhattan distance. -/
def metricFn : Fin 2 → Point → Point → ℚ
  | 0 => dist_sqr
  | 1 => man_dist

/-- The source constant `METRIC_SPACE = 0` (0 = Euclidean, 1 = Manhattan). -/
def METRIC_SPACE : Fin 2 := 0

/-- Source `cpi(points, p)`:
`points.index(min(points, key=partial([dist_sqr, man_dist][METRIC_SPACE], p)))`,
with the metric-space selector taken as a parameter. -/
def cpi (ms : Fin 2) (points : List Point) (p : Point) : Except PyErr ℕ :=
  (pymin (fun q => metricFn ms p q) points).map (pyIndex points)

/-- The grid construction of `main`:
`[[cpi(points, normalize((x, y))) for x in range(RES)] for y in range(RES)]`. -/
def buildGrid (ms : Fin 2) (points : List Point) : List (List (Except PyErr ℕ)) :=
  (List.range RES).map fun (y : ℕ) => (List.range RES).map fun (x : ℕ) =>
    cpi ms points (normalize ((x : ℤ), (y : ℤ)))

/-- The left fold inside `pymin`, on a nonempty list `b :: l`, returns the
element at the first index attaining the minimal key. -/
lemma foldlMin_spec (key : Point → ℚ) (l : List Point) (b : Point) :
    ∃ i, i < (b :: l).length ∧
      (l.foldl (fun b a => if key a < key b then a else b) b) = (b :: l).getD i pt0 ∧
      (∀ j, j < (b :: l).length → key ((b :: l).getD i pt0) ≤ key ((b :: l).getD j pt0)) ∧
      (∀ j, j < i → key ((b :: l).getD i pt0) < key ((b :: l).getD j pt0)) := by
  induction l generalizing b with
  | nil =>
    refine ⟨0, by simp, by simp, ?_, fun j hj => absurd hj (Nat.not_lt_zero j)⟩
    intro j hj
    match j with
    | 0 => exact le_refl _
    | j' + 1 => exact absurd hj (by simp)
  | cons a l ih =>
    rw [List.foldl_cons]
    by_cases hab : key a < key b
    · simp only [if_pos hab]
      obtain ⟨i, hi, heq, hmin, hstrict⟩ := ih a
      refine ⟨i + 1, by simpa using hi, by simpa using heq, ?_, ?_⟩
      · intro j hj
        match j with
        | 0 =>
          simp only [List.getD_cons_succ, List.getD_cons_zero]
          exact le_of_lt (lt_of_le_of_lt (by simpa using hmin 0 (by simp)) hab)
        | j' + 1 =>
          simp only [List.getD_cons_succ]
          exact hmin j' (by simpa using hj)
      · intro j hj
        match j with
        | 0 =>
          simp only [List.getD_cons_succ, List.getD_cons_zero]
          exact lt_of_le_of_lt (by simpa using hmin 0 (by simp)) hab
        | j' + 1 =>
          simp only [List.getD_cons_succ]
          exact hstrict j' (by omega)
    · simp only [if_neg hab]
      push_neg at hab
      obtain ⟨i, hi, heq, hmin, hstrict⟩ := ih b
      match i with
      | 0 =>
        refine ⟨0, by simp, by simpa using heq, ?_,
          fun j hj => absurd hj (Nat.not_lt_zero j)⟩
        intro j hj
        match j with
        | 0 => exact le_refl _
        | 1 =>
          simp only [List.getD_cons_succ, List.getD_cons_zero] at *
          exact hab
        | j' + 2 =>
          simp only [List.getD_cons_succ, List.getD_cons_zero] at *
          exact hmin (j' + 1) (by simpa using hj)
      | i' + 1 =>
        refine ⟨i' + 2, by simpa using hi, by simpa using heq, ?_, ?_⟩
        · intro j hj
          match j with
          | 0 =>
            simp only [List.getD_cons_succ, List.getD_cons_zero] at *
            exact hmin 0 (by simp)
          | 1 =>
            simp only [List.getD_cons_succ, List.getD_cons_zero] at *
            exact le_trans (hmin 0 (by simp)) hab
          | j' + 2 =>
            simp only [List.getD_cons_succ] at *
            exact hmin (j' + 1) (by simpa using hj)
        · intro j hj
          match j with
          | 0 =>
            simp only [List.getD_cons_succ, List.getD_cons_zero] at *
            exact hstrict 0 (by omega)
          | 1 =>
            simp only [List.getD_cons_succ, List.getD_cons_zero] at *
            exact lt_of_lt_of_le (hstrict 0 (by omega)) hab
          | j' + 2 =>
            simp only [List.getD_cons_succ] at *
            exact hstrict (j' + 1) (by omega)

/-- For `x ∈ l` is in range, retrieves `x`, and no earlier
index holds `x`. -/
lemma pyIndex_spec (l : List Point) (x : Point) (h : x ∈ l) :
    pyIndex l x < l.length ∧ l.getD (pyIndex l x) pt0 = x ∧
      ∀ j, j < pyIndex l x → l.getD j pt0 ≠ x := by
  induction l with
  | nil => simp at h
  | cons a l ih =>
    by_cases hax : a = x
    · subst hax
      have h0 : pyIndex (a :: l) a = 0 := by
        simp [pyIndex, List.findIdx_cons]
      refine ⟨by simp [h0], by simp [h0], ?_⟩
      intro j hj
      rw [h0] at hj
      exact absurd hj (Nat.not_lt_zero j)
    · have hmem : x ∈ l := by
        rcases List.mem_cons.mp h with h' | h'
        · exact absurd h'.symm hax
        · exact h'
      have hstep : pyIndex (a :: l) x = pyIndex l x + 1 := by
        simp [pyIndex, List.findIdx_cons, hax]
      obtain ⟨h1, h2, h3⟩ := ih hmem
      refine ⟨by simp only [hstep, List.length_cons]; omega,
        by simp only [hstep, List.getD_cons_succ]; exact h2, ?_⟩
      intro j hj
      rw [hstep] at hj
      match j with
      | 0 => simpa using hax
      | j' + 1 =>
        simp only [List.getD_cons_succ]
        exact h3 j' (by omega)

/-- Master characterization of `cpi`: on a nonempty list it returns the
first index attaining the minimal distance to `p` under the selected metric,
and that index is the first occurrence of its point value in the list. -/
lemma cpi_eq_argmin (ms : Fin 2) (points : List Point) (p : Point) (h : points ≠ []) :
    ∃ i, cpi ms points p = Except.ok i ∧ i < points.length ∧
      (∀ j, j < points.length →
        metricFn ms p (points.getD i pt0) ≤ metricFn ms p (points.getD j pt0)) ∧
      (∀ j, j < i →
        metricFn ms p (points.getD i pt0) < metricFn ms p (points.getD j pt0)) ∧
      pyIndex points (points.getD i pt0) = i := by
  match points with
  | [] => exact absurd rfl h
  | b :: l =>
    obtain ⟨i, hi, heq, hmin, hstrict⟩ := foldlMin_spec (fun q => metricFn ms p q) l b
    have hr_mem : (b :: l).getD i pt0 ∈ b :: l := by
      rw [List.getD_eq_getElem _ _ hi]
      exact List.getElem_mem _
    obtain ⟨hj1, hj2, hj3⟩ := pyIndex_spec (b :: l) _ hr_mem
    have hidx : pyIndex (b :: l) ((b :: l).getD i pt0) = i := by
      rcases lt_trichotomy (pyIndex (b :: l) ((b :: l).getD i pt0)) i with hlt | heq' | hgt
      · have hs := hstrict _ hlt
        rw [hj2] at hs
        exact absurd hs (lt_irrefl _)
      · exact heq'
      · exact absurd rfl (hj3 i hgt)
    refine ⟨i, ?_, hi, hmin, hstrict, hidx⟩
    have hcpi : cpi ms (b :: l) p = Except.ok (pyIndex (b :: l)
        (l.foldl (fun b a =>
          if metricFn ms p a < metricFn ms p b then a else b) b)) := rfl
    rw [hcpi, heq, hidx]

/-- Python `dict` assignment: replace the value at an existing key in place,
otherwise append the new binding at the end. -/
def dictInsert : List (ℕ × Col) → ℕ → Col → List (ℕ × Col)
  | [], k, v => [(k, v)]
  | (k', v') :: d, k, v =>
    if k' = k then (k, v) :: d else (k', v') :: dictInsert d k v

/-- Python `dict` lookup, as an `Option` (Python raises `KeyError` on a
missing key). -/
def dictGet : List (ℕ × Col) → ℕ → Option Col
  | [], _ => none
  | (k', v') :: d, k => if k' = k then some v' else dictGet d k

/-- The dict comprehension of `gen_image`:
`{points.index(p): mapping(p) for p in points}`. -/
def buildCols (mapping : Point → Col) (points : List Point) : List (ℕ × Col) :=
  points.foldl (fun d p => dictInsert d (pyIndex points p) (mapping p)) []

/-- The dict comprehension of `gen_image` instrumented with a counter that
increments once per evaluation of `mapping(p)`, i.e. once per element of
`points`. -/
def buildColsCounted (mapping : Point → Col) (points : List Point) :
    List (ℕ × Col) × ℕ :=
  points.foldl
    (fun acc p => (dictInsert acc.1 (pyIndex points p) (mapping p), acc.2 + 1))
    ([], 0)

/-- The marker fill colour `(0, 0, 0)` of the source. -/
def black : Col := (0, 0, 0)

/-- The grid access `grid[y][x]` of `gen_image`. -/
def gridAt (grid : List (List ℕ)) (x y : ℕ) : ℕ := (grid.getD y []).getD x 0

/-- One base pixel of `gen_image`: `image.putpixel((x, y), cols[grid[y][x]])`.
Python raises `KeyError` on a missing dict key; the lookup here is total
with an arbitrary default, and claim C10 shows the looked-up key is always
present when the grid entries come from `cpi` over the same list. -/
def basePixel (cols : List (ℕ × Col)) (grid : List (List ℕ)) (x y : ℕ) : Col :=
  (dictGet cols (gridAt grid x y)).getD black

/-- Modelled from the spec: PIL's `ImageDraw.circle` (an external library
collaborator, not part of this repository) draws a filled disk of the given
radius centred at `c`, unconditionally overwriting the pixels underneath
with the fill colour. -/
def drawCircle (img : ℕ → ℕ → Col) (c : Pixel) (r : ℕ) (fill : Col) :
    ℕ → ℕ → Col :=
  fun x y =>
    if ((x : ℤ) - c.1) ^ 2 + ((y : ℤ) - c.2) ^ 2 ≤ (r : ℤ) ^ 2 then fill
    else img x y

/-- Membership of pixel `(x, y)` in the marker disk of radius `r` at `c`. -/
def inDisk (c : Pixel) (r : ℕ) (x y : ℕ) : Prop :=
  ((x : ℤ) - c.1) ^ 2 + ((y : ℤ) - c.2) ^ 2 ≤ (r : ℤ) ^ 2

instance (c : Pixel) (r : ℕ) (x y : ℕ) : Decidable (inDisk c r x y) :=
  inferInstanceAs (Decidable (((x : ℤ) - c.1) ^ 2 + ((y : ℤ) - c.2) ^ 2 ≤ (r : ℤ) ^ 2))

/-- Source `gen_image(points, grid, mapping)` as a raster function, with the module
constant `DOT_SIZE` taken as the parameter `dotSize` (`if DOT_SIZE:` in the
source is Python truthiness, i.e. `dotSize ≠ 0`). -/
def gen_image (points : List Point) (grid : List (List ℕ)) (mapping : Point → Col)
    (dotSize : ℕ) : ℕ → ℕ → Col :=
  let cols := buildCols mapping points
  let base := fun x y => basePixel cols grid x y
  if dotSize ≠ 0 then
    points.foldl (fun img point => drawCircle img (denormalize point) dotSize black) base
  else base

/-- Inserting stores the new binding at its key. -/
lemma dictGet_dictInsert_self (d : List (ℕ × Col)) (k : ℕ) (v : Col) :
    dictGet (dictInsert d k v) k = some v := by
  induction d with
  | nil => simp [dictInsert, dictGet]
  | cons kv d ih =>
    obtain ⟨k', v'⟩ := kv
    by_cases hk : k' = k
    · simp [dictInsert, dictGet, hk]
    · simp [dictInsert, dictGet, hk, ih]

/-- Inserting keeps every key that was already present. -/
lemma dictGet_dictInsert_isSome (d : List (ℕ × Col)) (k k' : ℕ) (v : Col)
    (h : (dictGet d k').isSome = true) :
    (dictGet (dictInsert d k v) k').isSome = true := by
  induction d with
  | nil => simp [dictGet] at h
  | cons kv d ih =>
    obtain ⟨k₀, v₀⟩ := kv
    by_cases hk : k₀ = k
    · by_cases hk' : k₀ = k'
      · simp [dictInsert, dictGet, hk, hk ▸ hk']
      · simp only [dictGet, if_neg hk'] at h
        simp only [dictInsert, if_pos hk, dictGet]
        rw [if_neg (by rw [← hk]; exact hk')]
        exact h
    · by_cases hk' : k₀ = k'
      · subst hk'
        simp [dictInsert, dictGet, hk]
      · simp only [dictGet, if_neg hk'] at h
        simp only [dictInsert, if_neg hk, dictGet, if_neg hk']
        exact ih h

/-- Every first-occurrence index of an element of the fold's worklist ends up
as a present key of the accumulated dict. -/
lemma foldl_dictInsert_isSome (mapping : Point → Col) (points : List Point)
    (ps : List Point) (d : List (ℕ × Col)) (k : ℕ)
    (h : (∃ q ∈ ps, pyIndex points q = k) ∨ (dictGet d k).isSome = true) :
    (dictGet (ps.foldl (fun d p => dictInsert d (pyIndex points p) (mapping p)) d) k).isSome
      = true := by
  induction ps generalizing d with
  | nil =>
    rcases h with ⟨q, hq, _⟩ | h
    · simp at hq
    · exact h
  | cons a ps ih =>
    rw [List.foldl_cons]
    apply ih
    rcases h with ⟨q, hq, hqk⟩ | h
    · rcases List.mem_cons.mp hq with rfl | hq'
      · right
        rw [← hqk]
        simp [dictGet_dictInsert_self]
      · exact Or.inl ⟨q, hq', hqk⟩
    · exact Or.inr (dictGet_dictInsert_isSome d _ k (mapping a) h)

/-- Painting the pixels: a pixel inside no marker disk keeps the base value. -/
lemma foldl_draw_miss (base : ℕ → ℕ → Col) (ps : List Point) (r : ℕ) (x y : ℕ)
    (h : ∀ q ∈ ps, ¬ inDisk (denormalize q) r x y) :
    (ps.foldl (fun img point => drawCircle img (denormalize point) r black) base) x y
      = base x y := by
  induction ps generalizing base with
  | nil => rfl
  | cons a ps ih =>
    rw [List.foldl_cons, ih _ (fun q hq => h q (List.mem_cons_of_mem a hq))]
    exact if_neg (h a (List.mem_cons_self a ps))

/-- Painting the pixels: a pixel inside some marker disk ends up black. -/
lemma foldl_draw_hit (base : ℕ → ℕ → Col) (ps : List Point) (r : ℕ) (x y : ℕ)
    (h : ∃ q ∈ ps, inDisk (denormalize q) r x y) :
    (ps.foldl (fun img point => drawCircle img (denormalize point) r black) base) x y
      = black := by
  induction ps generalizing base with
  | nil => simp at h
  | cons a ps ih =>
    rw [List.foldl_cons]
    by_cases hps : ∃ q ∈ ps, inDisk (denormalize q) r x y
    · exact ih _ hps
    · push_neg at hps
      rw [foldl_draw_miss _ _ _ _ _ hps]
      have ha : inDisk (denormalize a) r x y := by
        obtain ⟨q, hq, hdisk⟩ := h
        rcases List.mem_cons.mp hq with rfl | hq'
        · exact hdisk
        · exact absurd hdisk (hps q hq')
      exact if_pos ha

/-- The counting fold computes the same dict as the plain fold and counts
one `mapping` evaluation per worklist element. -/
lemma foldl_counted (mapping : Point → Col) (points : List Point)
    (ps : List Point) (d : List (ℕ × Col)) (n : ℕ) :
    ps.foldl
        (fun acc p => (dictInsert acc.1 (pyIndex points p) (mapping p), acc.2 + 1))
        (d, n) =
      (ps.foldl (fun d p => dictInsert d (pyIndex points p) (mapping p)) d,
        n + ps.length) := by
  induction ps generalizing d n with
  | nil => simp
  | cons a ps ih =>
    rw [List.foldl_cons, List.foldl_cons, ih]
    simp only [List.length_cons]
    congr 1
    omega

/-- The raster depends on the mapping only through the site colour table. -/
lemma gen_image_congr (points : List Point) (grid : List (List ℕ))
    (m1 m2 : Point → Col) (dotSize : ℕ)
    (h : buildCols m1 points = buildCols m2 points) (x y : ℕ) :
    gen_image points grid m1 dotSize x y = gen_image points grid m2 dotSize x y := by
  simp only [gen_image, h]

/-- Accessing a mapped range list below its length. -/
lemma getD_map_range {α : Type} (n : ℕ) (f : ℕ → α) (d : α) (y : ℕ) (hy : y < n) :
    ((List.range n).map f).getD y d = f y := by
  rw [List.getD_eq_getElem _ _ (by simpa using hy)]
  simp

/-- C1: for every pixel `(x, y)` with `0 ≤ x, y < RES` and every non-empty
site list, the grid entry `grid[y][x]` built by `main` is
`cpi(points, normalize((x, y)))`, and that value is `Except.ok i` for an
index `i` of a site whose distance to the pixel's normalized coordinate,
under the selected metric (squared Euclidean for `METRIC_SPACE = 0`,
Manhattan for `METRIC_SPACE = 1`), is minimal over the entire site list. -/
theorem claim_C1 (ms : Fin 2) (points : List Point) (x y : ℕ)
    (hne : points ≠ []) (hx : x < RES) (hy : y < RES) :
    ((buildGrid ms points).getD y []).getD x (Except.error PyErr.valueError) =
      cpi ms points (normalize ((x : ℤ), (y : ℤ))) ∧
    ∃ i, cpi ms points (normalize ((x : ℤ), (y : ℤ))) = Except.ok i ∧
      i < points.length ∧
      ∀ j, j < points.length →
        metricFn ms (normalize ((x : ℤ), (y : ℤ))) (points.getD i pt0) ≤
          metricFn ms (normalize ((x : ℤ), (y : ℤ))) (points.getD j pt0) := by
  constructor
  · rw [buildGrid, getD_map_range RES _ _ y hy, getD_map_range RES _ _ x hx]
  · obtain ⟨i, hok, hi, hmin, _, _⟩ :=
      cpi_eq_argmin ms points (normalize ((x : ℤ), (y : ℤ))) hne
    exact ⟨i, hok, hi, hmin⟩

/-- C1 witness at a concrete pixel and site list. -/
theorem claim_C1_witness :
    ([((0 : ℚ), (0 : ℚ)), ((1 : ℚ), (1 : ℚ))] : List Point) ≠ [] ∧ 0 < RES ∧ 1 < RES ∧
    (((buildGrid 0 [((0 : ℚ), (0 : ℚ)), ((1 : ℚ), (1 : ℚ))]).getD 1 []).getD 0
        (Except.error PyErr.valueError) =
      cpi 0 [((0 : ℚ), (0 : ℚ)), ((1 : ℚ), (1 : ℚ))] (normalize ((0 : ℤ), (1 : ℤ))) ∧
    ∃ i, cpi 0 [((0 : ℚ), (0 : ℚ)), ((1 : ℚ), (1 : ℚ))] (normalize ((0 : ℤ), (1 : ℤ)))
        = Except.ok i ∧
      i < ([((0 : ℚ), (0 : ℚ)), ((1 : ℚ), (1 : ℚ))] : List Point).length ∧
      ∀ j, j < ([((0 : ℚ), (0 : ℚ)), ((1 : ℚ), (1 : ℚ))] : List Point).length →
        metricFn 0 (normalize ((0 : ℤ), (1 : ℤ)))
            (([((0 : ℚ), (0 : ℚ)), ((1 : ℚ), (1 : ℚ))] : List Point).getD i pt0) ≤
          metricFn 0 (normalize ((0 : ℤ), (1 : ℤ)))
            (([((0 : ℚ), (0 : ℚ)), ((1 : ℚ), (1 : ℚ))] : List Point).getD j pt0)) :=
  ⟨List.cons_ne_nil _ _, by decide, by decide,
    claim_C1 0 [((0 : ℚ), (0 : ℚ)), ((1 : ℚ), (1 : ℚ))] 0 1
      (List.cons_ne_nil _ _) (by decide) (by decide)⟩

/-- C2: when several sites attain the minimal distance to `p` under the
selected metric, `cpi` returns the index of the tied site appearing earliest
in the list, and the result of a repeated identical call is the same. -/
theorem claim_C2 (ms : Fin 2) (points : List Point) (p : Point) (j k : ℕ)
    (hj : j < points.length) (hk : k < points.length) (hjk : j ≠ k)
    (hminj : ∀ l, l < points.length →
      metricFn ms p (points.getD j pt0) ≤ metricFn ms p (points.getD l pt0))
    (hmink : ∀ l, l < points.length →
      metricFn ms p (points.getD k pt0) ≤ metricFn ms p (points.getD l pt0))
    (hfirst : ∀ l, l < j →
      metricFn ms p (points.getD j pt0) < metricFn ms p (points.getD l pt0)) :
    cpi ms points p = Except.ok j ∧ cpi ms points p = cpi ms points p := by
  have hne : points ≠ [] := by
    intro h
    rw [h] at hj
    simp at hj
  obtain ⟨i, hok, hi, hmin, hstrict, _⟩ := cpi_eq_argmin ms points p hne
  have hij : i = j := by
    rcases lt_trichotomy i j with h1 | h1 | h1
    · exact absurd (hmin j hj) (not_le.mpr (hfirst i h1))
    · exact h1
    · exact absurd (hminj i hi) (not_le.mpr (hstrict j h1))
  exact ⟨hij ▸ hok, rfl⟩

/-- C2 witness: two sites tied for the query point, the earlier one wins. -/
theorem claim_C2_witness :
    (0 : ℕ) < ([((0 : ℚ), (0 : ℚ)), ((1 : ℚ), (0 : ℚ))] : List Point).length ∧
    (1 : ℕ) < ([((0 : ℚ), (0 : ℚ)), ((1 : ℚ), (0 : ℚ))] : List Point).length ∧
    cpi 0 [((0 : ℚ), (0 : ℚ)), ((1 : ℚ), (0 : ℚ))] ((1 : ℚ)/2, (0 : ℚ)) = Except.ok 0 :=
  ⟨by decide, by decide,
    (claim_C2 0 [((0 : ℚ), (0 : ℚ)), ((1 : ℚ), (0 : ℚ))] ((1 : ℚ)/2, (0 : ℚ)) 0 1
      (by decide) (by decide) (by decide)
      (by
        intro l hl
        simp only [List.length_cons, List.length_nil] at hl
        interval_cases l <;> norm_num [metricFn, dist_sqr, pt0])
      (by
        intro l hl
        simp only [List.length_cons, List.length_nil] at hl
        interval_cases l <;> norm_num [metricFn, dist_sqr, pt0])
      (fun l hl => absurd hl (Nat.not_lt_zero l))).1⟩

/-- C3 counterexample: on an empty site list, `cpi` fails with Python's
`ValueError` raised by `min` on an empty sequence; it does not fail with the
`InvalidInput` error the claim postulates, because no input validation
precedes grid construction in the source. -/
theorem claim_C3_counterexample :
    cpi 0 [] ((0 : ℚ), (0 : ℚ)) = Except.error PyErr.valueError ∧
    cpi 0 [] ((0 : ℚ), (0 : ℚ)) ≠ Except.error PyErr.invalidInput := by
  constructor
  · rfl
  · intro h
    exact PyErr.noConfusion (Except.error.inj h)

/-- C3 (amended): invoked with an empty site set, `cpi` fails with the
runtime `ValueError` crash of taking the minimum of an empty collection
(there is no up-front `InvalidInput` validation in the code); with a
non-empty site set it never fails. -/
theorem claim_C3 (ms : Fin 2) (points : List Point) (p : Point) :
    (points = [] → cpi ms points p = Except.error PyErr.valueError) ∧
    (points ≠ [] → ∃ i, cpi ms points p = Except.ok i) := by
  constructor
  · intro h
    subst h
    rfl
  · intro h
    obtain ⟨i, hok, _⟩ := cpi_eq_argmin ms points p h
    exact ⟨i, hok⟩

/-- C3 witness: the empty-list crash and a successful non-empty call. -/
theorem claim_C3_witness :
    cpi 0 [] ((0 : ℚ), (0 : ℚ)) = Except.error PyErr.valueError ∧
    ∃ i, cpi 0 [((1 : ℚ), (1 : ℚ))] ((0 : ℚ), (0 : ℚ)) = Except.ok i :=
  ⟨(claim_C3 0 [] ((0 : ℚ), (0 : ℚ))).1 rfl,
    (claim_C3 0 [((1 : ℚ), (1 : ℚ))] ((0 : ℚ), (0 : ℚ))).2 (List.cons_ne_nil _ _)⟩

/-- C4: for every pixel with integer coordinates in `[0, RES)²`,
`denormalize (normalize pixel) = pixel`: normalization divides each
coordinate by `RES`, denormalization multiplies by `RES` and truncates
toward zero. -/
theorem claim_C4 (x y : ℤ) (hx0 : 0 ≤ x) (hx : x < (RES : ℤ))
    (hy0 : 0 ≤ y) (hy : y < (RES : ℤ)) :
    denormalize (normalize (x, y)) = (x, y) := by
  have key : ∀ z : ℤ, pyInt ((z : ℚ) / (RES : ℚ) * (RES : ℚ)) = z := by
    intro z
    have hz : ((z : ℚ) / (RES : ℚ) * (RES : ℚ)) = (z : ℚ) := by
      rw [div_mul_cancel₀]
      norm_num [RES]
    rw [pyInt, hz]
    split
    · exact Int.floor_intCast z
    · exact Int.ceil_intCast z
  show (pyInt ((x : ℚ) / (RES : ℚ) * (RES : ℚ)),
      pyInt ((y : ℚ) / (RES : ℚ) * (RES : ℚ))) = (x, y)
  rw [key x, key y]

/-- C4 witness at the concrete pixel `(3, 500)`. -/
theorem claim_C4_witness :
    (0 : ℤ) ≤ 3 ∧ (3 : ℤ) < (RES : ℤ) ∧ (0 : ℤ) ≤ 500 ∧ (500 : ℤ) < (RES : ℤ) ∧
    denormalize (normalize ((3 : ℤ), (500 : ℤ))) = ((3 : ℤ), (500 : ℤ)) :=
  ⟨by decide, by decide, by decide, by decide,
    claim_C4 3 500 (by decide) (by decide) (by decide) (by decide)⟩

/-- Truncation `pyInt` of a value in `[0, 255]` lies in `[0, 255]`. -/
lemma pyInt_bounds (q : ℚ) (h0 : 0 ≤ q) (h1 : q ≤ 255) :
    0 ≤ pyInt q ∧ pyInt q ≤ 255 := by
  rw [pyInt, if_pos h0]
  refine ⟨Int.floor_nonneg.mpr h0, ?_⟩
  calc ⌊q⌋ ≤ ⌊(255 : ℚ)⌋ := Int.floor_le_floor h1
    _ = 255 := by norm_num

/-- C6: `xy_to_rg (x, y)` is `(int(x·255), int(y·255), 0)` with truncating
channel scaling; channels in `[0, 1]` land in `[0, 255]`; and on the input
`(0.5, 0.25)` the result is `(127, 63, 0)`. -/
theorem claim_C6 :
    (∀ x y : ℚ, xy_to_rg (x, y) = (pyInt (x * 255), pyInt (y * 255), 0)) ∧
    (∀ x y : ℚ, 0 ≤ x → x ≤ 1 → 0 ≤ y → y ≤ 1 →
      0 ≤ (xy_to_rg (x, y)).1 ∧ (xy_to_rg (x, y)).1 ≤ 255 ∧
        0 ≤ (xy_to_rg (x, y)).2.1 ∧ (xy_to_rg (x, y)).2.1 ≤ 255) ∧
    xy_to_rg ((1 : ℚ)/2, (1 : ℚ)/4) = (127, 63, 0) := by
  refine ⟨?_, ?_, ?_⟩
  · intro x y
    show (pyInt (x * 255), pyInt (y * 255), pyInt (0 * 255)) = _
    norm_num [pyInt]
  · intro x y hx0 hx1 hy0 hy1
    have bx := pyInt_bounds (x * 255) (mul_nonneg hx0 (by norm_num)) (by linarith)
    have hy := pyInt_bounds (y * 255) (mul_nonneg hy0 (by norm_num)) (by linarith)
    exact ⟨bx.1, bx.2, hy.1, hy.2⟩
  · show (pyInt ((1 : ℚ)/2 * 255), pyInt ((1 : ℚ)/4 * 255), pyInt (0 * 255)) = _
    norm_num [pyInt]

/-- C6 witness: the channel bounds discharged at the concrete site
`(0.5, 0.25)`. -/
theorem claim_C6_witness :
    (0 : ℚ) ≤ 1/2 ∧ (1 : ℚ)/2 ≤ 1 ∧ (0 : ℚ) ≤ 1/4 ∧ (1 : ℚ)/4 ≤ 1 ∧
    (0 ≤ (xy_to_rg ((1 : ℚ)/2, (1 : ℚ)/4)).1 ∧
      (xy_to_rg ((1 : ℚ)/2, (1 : ℚ)/4)).1 ≤ 255 ∧
      0 ≤ (xy_to_rg ((1 : ℚ)/2, (1 : ℚ)/4)).2.1 ∧
      (xy_to_rg ((1 : ℚ)/2, (1 : ℚ)/4)).2.1 ≤ 255) :=
  ⟨by norm_num, by norm_num, by norm_num, by norm_num,
    claim_C6.2.1 (1/2) (1/4) (by norm_num) (by norm_num) (by norm_num) (by norm_num)⟩

/-- With a nonzero dot size, `gen_image` is the base raster overpainted by
the marker disks. -/
lemma gen_image_pos (points : List Point) (grid : List (List ℕ))
    (mapping : Point → Col) (dotSize : ℕ) (h : dotSize ≠ 0) :
    gen_image points grid mapping dotSize =
      points.foldl (fun img point => drawCircle img (denormalize point) dotSize black)
        (fun x y => basePixel (buildCols mapping points) grid x y) := by
  simp [gen_image, h]

/-- With dot size `0`, `gen_image` is exactly the base raster. -/
lemma gen_image_zero (points : List Point) (grid : List (List ℕ))
    (mapping : Point → Col) :
    gen_image points grid mapping 0 =
      fun x y => basePixel (buildCols mapping points) grid x y := by
  simp [gen_image]

/-- C7: with marker radius 0 no markers are drawn and every pixel keeps the
grid-looked-up region colour; with a positive radius, every pixel inside
some site's marker disk (centred at the site's denormalized pixel) is
overwritten to black, and every pixel outside all disks keeps its region
colour. -/
theorem claim_C7 (points : List Point) (grid : List (List ℕ))
    (mapping : Point → Col) (dotSize : ℕ) (x y : ℕ) :
    (dotSize = 0 →
      gen_image points grid mapping dotSize x y
        = basePixel (buildCols mapping points) grid x y) ∧
    (dotSize ≠ 0 → (∃ q ∈ points, inDisk (denormalize q) dotSize x y) →
      gen_image points grid mapping dotSize x y = black) ∧
    ((∀ q ∈ points, ¬ inDisk (denormalize q) dotSize x y) →
      gen_image points grid mapping dotSize x y
        = basePixel (buildCols mapping points) grid x y) := by
  refine ⟨?_, ?_, ?_⟩
  · intro h
    subst h
    rw [gen_image_zero]
  · intro h hq
    rw [gen_image_pos points grid mapping dotSize h]
    exact foldl_draw_hit _ points dotSize x y hq
  · intro hq
    by_cases h : dotSize = 0
    · subst h
      rw [gen_image_zero]
    · rw [gen_image_pos points grid mapping dotSize h]
      exact foldl_draw_miss _ points dotSize x y hq

/-- C7 witness: a site at the origin with radius 1 blackens pixel `(0, 0)`. -/
theorem claim_C7_witness :
    (1 : ℕ) ≠ 0 ∧
    (∃ q ∈ ([((0 : ℚ), (0 : ℚ))] : List Point), inDisk (denormalize q) 1 0 0) ∧
    gen_image [((0 : ℚ), (0 : ℚ))] [[0]] (fun _ => (7, 7, 7)) 1 0 0 = black := by
  have hdisk : inDisk (denormalize ((0 : ℚ), (0 : ℚ))) 1 0 0 := by
    norm_num [inDisk, denormalize, pyInt]
  exact ⟨one_ne_zero,
    ⟨((0 : ℚ), (0 : ℚ)), List.mem_singleton_self _, hdisk⟩,
    (claim_C7 [((0 : ℚ), (0 : ℚ))] [[0]] (fun _ => (7, 7, 7)) 1 0 0).2.1 one_ne_zero
      ⟨((0 : ℚ), (0 : ℚ)), List.mem_singleton_self _, hdisk⟩⟩

/-- C8: during image composition the colour mapping is evaluated exactly
once per element of the site list (the instrumented table builder counts
`points.length` evaluations, independent of `RES`), the instrumented build
returns the same site-index→colour table, and the raster depends on the
mapping only through that table (pixel colours are looked up, never
recomputed per pixel). -/
theorem claim_C8 (points : List Point) (mapping : Point → Col) :
    (buildColsCounted mapping points).2 = points.length ∧
    (buildColsCounted mapping points).1 = buildCols mapping points ∧
    ∀ (grid : List (List ℕ)) (dotSize : ℕ) (m2 : Point → Col),
      buildCols mapping points = buildCols m2 points →
      ∀ x y, gen_image points grid mapping dotSize x y
        = gen_image points grid m2 dotSize x y := by
  refine ⟨?_, ?_, ?_⟩
  · rw [buildColsCounted, foldl_counted]
    simp
  · rw [buildColsCounted, foldl_counted]
    rfl
  · intro grid dotSize m2 h x y
    exact gen_image_congr points grid mapping m2 dotSize h x y

/-- C8 witness: the count, table equality and table-determined raster at a
concrete site list. -/
theorem claim_C8_witness :
    (buildColsCounted (fun _ => (7, 7, 7)) [((0 : ℚ), (0 : ℚ))]).2
        = ([((0 : ℚ), (0 : ℚ))] : List Point).length ∧
    gen_image [((0 : ℚ), (0 : ℚ))] [[0]] (fun _ => (7, 7, 7)) 2 0 0
      = gen_image [((0 : ℚ), (0 : ℚ))] [[0]] (fun _ => (7, 7, 7)) 2 0 0 :=
  ⟨(claim_C8 [((0 : ℚ), (0 : ℚ))] (fun _ => (7, 7, 7))).1,
    (claim_C8 [((0 : ℚ), (0 : ℚ))] (fun _ => (7, 7, 7))).2.2 [[0]] 2
      (fun _ => (7, 7, 7)) rfl 0 0⟩

/-- C9: grid construction and image composition are deterministic: repeated
runs on the same inputs give identical results, and the raster is fully
determined by the grid, the site colour table and the marker radius. -/
theorem claim_C9 :
    (∀ (ms : Fin 2) (points : List Point), buildGrid ms points = buildGrid ms points) ∧
    (∀ (points : List Point) (grid : List (List ℕ)) (mapping : Point → Col)
      (dotSize : ℕ),
      gen_image points grid mapping dotSize = gen_image points grid mapping dotSize) ∧
    (∀ (points : List Point) (grid : List (List ℕ)) (m1 m2 : Point → Col)
      (dotSize : ℕ),
      buildCols m1 points = buildCols m2 points →
      ∀ x y, gen_image points grid m1 dotSize x y
        = gen_image points grid m2 dotSize x y) :=
  ⟨fun _ _ => rfl, fun _ _ _ _ => rfl,
    fun points grid m1 m2 dotSize h x y =>
      gen_image_congr points grid m1 m2 dotSize h x y⟩

/-- C9 witness: the table-determined raster discharged at a concrete input. -/
theorem claim_C9_witness :
    buildGrid 0 [((1 : ℚ), (0 : ℚ))] = buildGrid 0 [((1 : ℚ), (0 : ℚ))] ∧
    gen_image [((1 : ℚ), (0 : ℚ))] [[0]] (fun _ => (9, 9, 9)) 0 1 1
      = gen_image [((1 : ℚ), (0 : ℚ))] [[0]] (fun _ => (9, 9, 9)) 0 1 1 :=
  ⟨claim_C9.1 0 [((1 : ℚ), (0 : ℚ))],
    claim_C9.2.2 [((1 : ℚ), (0 : ℚ))] [[0]] (fun _ => (9, 9, 9)) (fun _ => (9, 9, 9))
      0 rfl 1 1⟩

/-- C10: every index `cpi` returns is the first occurrence of its point in
the list, and, for any mapping, that index is a present key of the colour
table `gen_image` builds, so the per-pixel colour lookup is defined. -/
theorem claim_C10 (ms : Fin 2) (points : List Point) (p : Point) (i : ℕ)
    (h : cpi ms points p = Except.ok i) :
    i < points.length ∧
    pyIndex points (points.getD i pt0) = i ∧
    ∀ mapping : Point → Col,
      (dictGet (buildCols mapping points) i).isSome = true := by
  have hne : points ≠ [] := by
    intro hnil
    subst hnil
    have hval : cpi ms ([] : List Point) p = Except.error PyErr.valueError := rfl
    rw [hval] at h
    exact Except.noConfusion h
  obtain ⟨i', hok, hi, _, _, hfirst⟩ := cpi_eq_argmin ms points p hne
  have hii : i = i' := by
    rw [h] at hok
    exact Except.ok.inj hok
  subst hii
  refine ⟨hi, hfirst, ?_⟩
  intro mapping
  apply foldl_dictInsert_isSome
  left
  refine ⟨points.getD i pt0, ?_, hfirst⟩
  rw [List.getD_eq_getElem _ _ hi]
  exact List.getElem_mem _

/-- C10 witness: a concrete successful `cpi` call whose index is a present
key of a concrete colour table. -/
theorem claim_C10_witness :
    cpi 0 [((0 : ℚ), (0 : ℚ))] ((0 : ℚ), (0 : ℚ)) = Except.ok 0 ∧
    (dictGet (buildCols (fun _ => (5, 5, 5)) [((0 : ℚ), (0 : ℚ))]) 0).isSome = true := by
  have h : cpi 0 [((0 : ℚ), (0 : ℚ))] ((0 : ℚ), (0 : ℚ)) = Except.ok 0 := by
    simp [cpi, pymin, pyIndex, Except.map, List.findIdx_cons]
  exact ⟨h,
    (claim_C10 0 [((0 : ℚ), (0 : ℚ))] ((0 : ℚ), (0 : ℚ)) 0 h).2.2 (fun _ => (5, 5, 5))⟩

/-! The transcendental colour mapping `polar_to_hsv` (square root, `atan2`,
`colorsys.hsv_to_rgb`) is modelled over `ℝ`. -/

/-- Python's `int()` applied to a real: truncation toward zero. -/
noncomputable def pyIntR (x : ℝ) : ℤ := if 0 ≤ x then ⌊x⌋ else ⌈x⌉

/-- Python's float `%` for a positive modulus: `x - m * floor(x / m)`. -/
noncomputable def pymodR (x m : ℝ) : ℝ := x - m * ⌊x / m⌋

/-- Source call `math.atan2(y, x)`: the angle of the point `(x, y)` in `(-π, π]`,
with `atan2(0, 0) = 0`; this is the argument of the complex number
`x + y·i`. -/
noncomputable def atan2 (y x : ℝ) : ℝ := Complex.arg ⟨x, y⟩

/-- Source call `colorsys.hsv_to_rgb(h, s, v)` (the Python standard library conversion
that `polar_to_hsv` calls), ported clause by clause; the final branch is the
`i % 6 == 5` case, the only remaining value of `i % 6`. -/
noncomputable def hsv_to_rgb (h s v : ℝ) : ℝ × ℝ × ℝ :=
  if s = 0 then (v, v, v)
  else
    let i : ℤ := pyIntR (h * 6)
    let f : ℝ := h * 6 - (i : ℝ)
    let p : ℝ := v * (1 - s)
    let q : ℝ := v * (1 - s * f)
    let t : ℝ := v * (1 - s * (1 - f))
    let i6 : ℤ := i % 6
    if i6 = 0 then (v, t, p)
    else if i6 = 1 then (q, v, p)
    else if i6 = 2 then (p, v, t)
    else if i6 = 3 then (p, q, t)
    else if i6 = 4 then (t, p, v)
    else (q, t, v)

/-- Function `scale` at real channel values (the same source function as `scale`,
instantiated at the real-valued HSV results). -/
noncomputable def scaleR (c : ℝ × ℝ × ℝ) : Col :=
  (pyIntR (c.1 * 255), pyIntR (c.2.1 * 255), pyIntR (c.2.2 * 255))

/-- Source `polar_to_hsv(p)`:
`r = ((p[0] - 0.5) ** 2 + (p[1] - 0.5) ** 2) ** 0.5`,
`angle = (atan2(p[1] - 0.5, p[0] - 0.5) % (2 * pi)) / (2 * pi)`,
`scale(hsv_to_rgb(angle, 1, r))`. -/
noncomputable def polar_to_hsv (p : ℝ × ℝ) : Col :=
  let r : ℝ := ((p.1 - 0.5) ^ 2 + (p.2 - 0.5) ^ 2) ^ ((0.5 : ℝ))
  let angle : ℝ := pymodR (atan2 (p.2 - 0.5) (p.1 - 0.5)) (2 * Real.pi) / (2 * Real.pi)
  scaleR (hsv_to_rgb angle 1 r)

/-- The mapping as claim C5 words it: the radius from the centre used as the
saturation axis (with full brightness), the normalized angle as hue, the
standard HSV→RGB conversion, then channel scaling. -/
noncomputable def polar_to_hsv_claim (p : ℝ × ℝ) : Col :=
  let r : ℝ := ((p.1 - 0.5) ^ 2 + (p.2 - 0.5) ^ 2) ^ ((0.5 : ℝ))
  let angle : ℝ := pymodR (atan2 (p.2 - 0.5) (p.1 - 0.5)) (2 * Real.pi) / (2 * Real.pi)
  scaleR (hsv_to_rgb angle r 1)

/-- Evaluating `pymodR` with a nonzero modulus is the modulus times the fractional part
of the quotient. -/
lemma pymodR_eq (x m : ℝ) (hm : m ≠ 0) : pymodR x m = m * Int.fract (x / m) := by
  rw [pymodR, Int.fract, mul_sub, mul_div_cancel₀ x hm]

/-- Python's float `%` with a positive modulus is non-negative. -/
lemma pymodR_nonneg (x m : ℝ) (hm : 0 < m) : 0 ≤ pymodR x m := by
  rw [pymodR_eq x m (ne_of_gt hm)]
  exact mul_nonneg (le_of_lt hm) (Int.fract_nonneg _)

/-- Python's float `%` with a positive modulus is below the modulus. -/
lemma pymodR_lt (x m : ℝ) (hm : 0 < m) : pymodR x m < m := by
  rw [pymodR_eq x m (ne_of_gt hm)]
  calc m * Int.fract (x / m) < m * 1 :=
        (mul_lt_mul_left hm).mpr (Int.fract_lt_one _)
    _ = m := mul_one m

/-- C5 (amended): `polar_to_hsv` recenters the point at `(0.5, 0.5)`, uses
the Euclidean radius from the centre as the HSV value axis with saturation
fixed at 1, uses the `atan2` angle normalized to `[0, 1)` via modulo `2π` as
the hue, and applies the standard HSV→RGB conversion followed by channel
scaling. -/
theorem claim_C5 (p : ℝ × ℝ) :
    polar_to_hsv p =
      scaleR (hsv_to_rgb
        (pymodR (atan2 (p.2 - 0.5) (p.1 - 0.5)) (2 * Real.pi) / (2 * Real.pi)) 1
        (Real.sqrt ((p.1 - 0.5) ^ 2 + (p.2 - 0.5) ^ 2))) ∧
    0 ≤ pymodR (atan2 (p.2 - 0.5) (p.1 - 0.5)) (2 * Real.pi) / (2 * Real.pi) ∧
    pymodR (atan2 (p.2 - 0.5) (p.1 - 0.5)) (2 * Real.pi) / (2 * Real.pi) < 1 := by
  refine ⟨?_, ?_, ?_⟩
  · have hr : ((p.1 - 0.5) ^ 2 + (p.2 - 0.5) ^ 2) ^ ((0.5 : ℝ))
        = Real.sqrt ((p.1 - 0.5) ^ 2 + (p.2 - 0.5) ^ 2) := by
      rw [Real.sqrt_eq_rpow]
      norm_num
    show scaleR (hsv_to_rgb
        (pymodR (atan2 (p.2 - 0.5) (p.1 - 0.5)) (2 * Real.pi) / (2 * Real.pi)) 1
        (((p.1 - 0.5) ^ 2 + (p.2 - 0.5) ^ 2) ^ ((0.5 : ℝ)))) = _
    rw [hr]
  · exact div_nonneg (pymodR_nonneg _ _ Real.two_pi_pos) (le_of_lt Real.two_pi_pos)
  · exact (div_lt_one Real.two_pi_pos).mpr (pymodR_lt _ _ Real.two_pi_pos)

/-- C5 counterexample: at the centre `(0.5, 0.5)` the code paints black
(radius is the HSV value, which is 0 there), while the claim's reading
(radius as saturation) paints white; so the radius is not the saturation
axis. -/
theorem claim_C5_counterexample :
    polar_to_hsv ((0.5 : ℝ), (0.5 : ℝ)) = ((0 : ℤ), (0 : ℤ), (0 : ℤ)) ∧
    polar_to_hsv_claim ((0.5 : ℝ), (0.5 : ℝ)) = ((255 : ℤ), (255 : ℤ), (255 : ℤ)) ∧
    polar_to_hsv ((0.5 : ℝ), (0.5 : ℝ)) ≠ polar_to_hsv_claim ((0.5 : ℝ), (0.5 : ℝ)) := by
  have e1 : ((0.5 : ℝ) - 0.5) = 0 := by norm_num
  have hatan : atan2 ((0.5 : ℝ) - 0.5) ((0.5 : ℝ) - 0.5) = 0 := by
    rw [e1, atan2]
    have h0 : (⟨0, 0⟩ : ℂ) = 0 := by
      apply Complex.ext <;> simp
    rw [h0]
    exact Complex.arg_zero
  have hangle : pymodR (atan2 ((0.5 : ℝ) - 0.5) ((0.5 : ℝ) - 0.5)) (2 * Real.pi)
      / (2 * Real.pi) = 0 := by
    rw [hatan, pymodR]
    norm_num
  have hrad : (((0.5 : ℝ) - 0.5) ^ 2 + ((0.5 : ℝ) - 0.5) ^ 2) ^ ((0.5 : ℝ)) = 0 := by
    rw [e1]
    have hb : ((0 : ℝ) ^ 2 + (0 : ℝ) ^ 2) = 0 := by norm_num
    rw [hb]
    exact Real.zero_rpow (by norm_num)
  have hhsv0 : hsv_to_rgb 0 1 0 = ((0 : ℝ), (0 : ℝ), (0 : ℝ)) := by
    rw [hsv_to_rgb]
    norm_num [pyIntR]
  have hhsv1 : hsv_to_rgb 0 0 1 = ((1 : ℝ), (1 : ℝ), (1 : ℝ)) := by
    rw [hsv_to_rgb]
    norm_num
  have hscale0 : scaleR ((0 : ℝ), (0 : ℝ), (0 : ℝ)) = ((0 : ℤ), (0 : ℤ), (0 : ℤ)) := by
    rw [scaleR, pyIntR]
    norm_num
  have hscale1 : scaleR ((1 : ℝ), (1 : ℝ), (1 : ℝ))
      = ((255 : ℤ), (255 : ℤ), (255 : ℤ)) := by
    rw [scaleR, pyIntR]
    norm_num
  have hcode : polar_to_hsv ((0.5 : ℝ), (0.5 : ℝ)) = ((0 : ℤ), (0 : ℤ), (0 : ℤ)) := by
    show scaleR (hsv_to_rgb
        (pymodR (atan2 ((0.5 : ℝ) - 0.5) ((0.5 : ℝ) - 0.5)) (2 * Real.pi)
          / (2 * Real.pi)) 1
        ((((0.5 : ℝ) - 0.5) ^ 2 + ((0.5 : ℝ) - 0.5) ^ 2) ^ ((0.5 : ℝ)))) = _
    rw [hangle, hrad, hhsv0, hscale0]
  have hclaim : polar_to_hsv_claim ((0.5 : ℝ), (0.5 : ℝ))
      = ((255 : ℤ), (255 : ℤ), (255 : ℤ)) := by
    show scaleR (hsv_to_rgb
        (pymodR (atan2 ((0.5 : ℝ) - 0.5) ((0.5 : ℝ) - 0.5)) (2 * Real.pi)
          / (2 * Real.pi))
        ((((0.5 : ℝ) - 0.5) ^ 2 + ((0.5 : ℝ) - 0.5) ^ 2) ^ ((0.5 : ℝ))) 1) = _
    rw [hangle, hrad, hhsv1, hscale1]
  refine ⟨hcode, hclaim, ?_⟩
  rw [hcode, hclaim]
  decide

end Voronoi
